import Mathlib

/-!
Shallow embedding of `src/App.tsx` from the agentic-chess repository: a
single-page client that configures two language-model players, fetches a
finished game's move list from a backend in one HTTP round trip, and
replays the moves onto a local chess.js instance at a fixed cadence.

External collaborators (chess.js rules engine, board widget, the network)
are out of scope of the repository; the rules engine is abstracted as the
sequence of moves applied to it since its last reset, and the position
encoding (`fen()`) as that determining sequence.  The network call is
abstracted as a `FetchResult` value (success carrying `move_history`, or
failure), since the repository treats it as a single opaque request.
-/

namespace AgenticChess

/-- Argument record of a `game.move({from, to, promotion})` call on the
chess.js instance (`from` is a Lean keyword, hence `fromSq`/`toSq`). -/
structure AppliedMove where
  fromSq : String
  toSq : String
  promotion : String
deriving DecidableEq, Repr

/-- The external chess.js rules-engine instance, abstracted as the sequence
of moves applied to it since the last `reset()`.  The engine itself is an
external capability and out of the repository's scope. -/
structure ChessGame where
  applied : List AppliedMove
deriving DecidableEq, Repr

/-- `game.move(m)`: apply one move to the engine. -/
def ChessGame.move (g : ChessGame) (m : AppliedMove) : ChessGame :=
  ⟨g.applied ++ [m]⟩

/-- `game.reset()`: restore the engine to the standard starting position. -/
def ChessGame.reset (_ : ChessGame) : ChessGame :=
  ⟨[]⟩

/-- `game.fen()`: the current position encoding.  The position of the
abstracted engine is determined by the moves applied since the last reset,
so the encoding is modelled as that sequence. -/
def ChessGame.fen (g : ChessGame) : List AppliedMove :=
  g.applied

/-- The position encoding of the standard chess starting position: no move
applied since a reset. -/
def startFen : List AppliedMove :=
  []

/-- Module-level `providers` list. -/
def providers : List String :=
  ["OpenAI", "Claude", "Gemini", "Mixtral"]

/-- Module-level `chessTrivia` list (App.tsx lines 8-19). -/
def chessTrivia : List String :=
  [ "The longest official chess game in history lasted 269 moves (Nikolić vs Arsović, 1989)"
  , "The number of possible unique chess games is greater than the number of atoms in the universe"
  , "The first chess computer program was developed by Alan Turing in 1951"
  , "The shortest possible chess game ending in checkmate takes just two moves"
  , "The longest chess game theoretically possible is 5,949 moves"
  , "The word \x27Checkmate\x27 comes from the Persian phrase \x27Shah Mat\x27 meaning \x27the king is dead\x27"
  , "Chess was invented in India around the 6th century AD"
  , "The first chess tournament was held in London in 1851"
  , "Magnus Carlsen became a chess grandmaster at the age of 13"
  , "The queen piece was originally the vizier and was the weakest piece" ]

/-- The React component state of `App` (one field per `useState` hook).
`position` is the UI's read-only mirror of the engine's position encoding.
`maxTurns` is an `Option Int`: `none` models the JavaScript `NaN` that
`parseInt` produces on non-numeric input (`Math.max(1, NaN) = NaN`). -/
structure AppState where
  game : ChessGame
  position : List AppliedMove
  whiteModel : String
  blackModel : String
  whiteKey : String
  blackKey : String
  maxTurns : Option Int
  isLoading : Bool
  thinking : String
  gameFinished : Bool
  currentTrivia : Nat
  gameStarted : Bool
  movesHistory : List String
deriving DecidableEq, Repr

/-- The initial values of the `useState` hooks (App.tsx lines 22-34). -/
def initialState : AppState :=
  { game := ⟨[]⟩
  , position := ChessGame.fen ⟨[]⟩
  , whiteModel := "OpenAI"
  , blackModel := "OpenAI"
  , whiteKey := ""
  , blackKey := ""
  , maxTurns := some 5
  , isLoading := false
  , thinking := ""
  , gameFinished := false
  , currentTrivia := 0
  , gameStarted := false
  , movesHistory := [] }

/-- One tick of the trivia interval timer (App.tsx lines 36-46): the
`useEffect` installs the interval only while `isLoading && !gameStarted`,
and each tick advances `currentTrivia` modulo the trivia list length;
otherwise no interval runs and the index does not change. -/
def triviaTick (s : AppState) : AppState :=
  if s.isLoading && !s.gameStarted then
    { s with currentTrivia := (s.currentTrivia + 1) % chessTrivia.length }
  else
    s

/-- `resetGame` (App.tsx lines 48-55): reset the engine, mirror its
position, and clear the derived match state.  The configuration fields and
`isLoading`/`currentTrivia` are not touched. -/
def resetGame (s : AppState) : AppState :=
  let g := s.game.reset
  { s with game := g
         , position := g.fen
         , gameFinished := false
         , thinking := ""
         , gameStarted := false
         , movesHistory := [] }

/-- `formatMove` (App.tsx lines 57-61): `move.slice(0,2) + "-" + move.slice(2,4)`. -/
def formatMove (move : String) : String :=
  let f := move.take 2
  let t := (move.drop 2).take 2
  f ++ "-" ++ t

/-- The argument of the `game.move` call at App.tsx line 102:
`{from: move.slice(0,2), to: move.slice(2,4), promotion: 'q'}`. -/
def toAppliedMove (move : String) : AppliedMove :=
  { fromSq := move.take 2
  , toSq := (move.drop 2).take 2
  , promotion := "q" }

/-- The body of one `playMoves` iteration with `i < moves.length`
(App.tsx lines 96-106): set the thinking text for the side at the cursor,
then (after the 1000 ms delay) apply `moves[i]` to the engine and mirror
the new position.  The cursor increment is modelled by the caller. -/
def applyMoveAt (moves : List String) (i : Nat) (s : AppState) : AppState :=
  let currentTurn := if i % 2 = 0 then "White" else "Black"
  let move := moves.getD i ""
  let g := s.game.move (toAppliedMove move)
  { s with thinking := currentTurn ++ " is thinking..."
         , game := g
         , position := g.fen }

/-- The terminal branch of `playMoves` (App.tsx lines 107-111), reached
when the cursor has passed the last move. -/
def finishReplay (s : AppState) : AppState :=
  { s with thinking := ""
         , isLoading := false
         , gameFinished := true }

/-- The recursive `playMoves` closure (App.tsx lines 95-112) run to
completion: while `i < moves.length`, apply the move at the cursor and
recurse with `i + 1`; once the cursor reaches the list length, clear the
thinking text, end loading and mark the game finished. -/
def playMoves (moves : List String) (i : Nat) (s : AppState) : AppState :=
  if i < moves.length then
    playMoves moves (i + 1) (applyMoveAt moves i s)
  else
    finishReplay s
termination_by moves.length - i

/-- One observable step of the replay sequencer, on a (cursor, state)
pair: a cursor short of the list length advances by one and applies the
move there; a cursor at the list length performs the terminal transition.
Iterating this step is the timeout chain of `playMoves`. -/
def stepReplay (moves : List String) (p : Nat × AppState) : Nat × AppState :=
  if p.1 < moves.length then
    (p.1 + 1, applyMoveAt moves p.1 p.2)
  else
    (p.1, finishReplay p.2)

/-- The (cursor, state) pair after `k` steps of the replay sequencer
started at cursor 0. -/
def replayAfter (moves : List String) (k : Nat) (s : AppState) : Nat × AppState :=
  (stepReplay moves)^[k] (0, s)

/-- Result of the single `fetch` + `response.json()` round trip: success
carries the `move_history` field of the response, failure is any rejection
caught by the `try/catch` (App.tsx lines 72-119). -/
inductive FetchResult where
  | success (moveHistory : List String)
  | failure
deriving DecidableEq, Repr

/-- The prologue of `startGame` before the `await fetch` (App.tsx lines
63-70): raise the loading flag, show the readiness message, clear the
finished/started flags and the recorded move list, reset the engine and
mirror its position. -/
def preFetch (s : AppState) : AppState :=
  let g := s.game.reset
  { s with isLoading := true
         , thinking := "Agents are getting ready..."
         , gameFinished := false
         , gameStarted := false
         , movesHistory := []
         , game := g
         , position := g.fen }

/-- The state right before the first `playMoves` call on a successful
fetch (App.tsx lines 90-93): the prologue state with the received move
list recorded and the started flag raised. -/
def postFetchSuccess (moves : List String) (s : AppState) : AppState :=
  { preFetch s with movesHistory := moves, gameStarted := true }

/-- `startGame` (App.tsx lines 63-120): prologue, then on success record
the move list, mark the game started and run the replay from cursor 0; on
a rejected fetch (or failed JSON parse) the catch block shows the static
failure message and ends loading. -/
def startGame (r : FetchResult) (s : AppState) : AppState :=
  match r with
  | .success moves => playMoves moves 0 (postFetchSuccess moves s)
  | .failure =>
      { preFetch s with thinking := "Failed to load moves.", isLoading := false }

/-- Value of a list of decimal digit characters. -/
def digitsVal (cs : List Char) : Nat :=
  cs.foldl (fun a c => a * 10 + (c.toNat - 48)) 0

/-- JavaScript `parseInt` on the strings a number input produces: skip
leading whitespace, read an optional sign and the longest prefix of
decimal digits; `none` models the `NaN` returned when no digit is read
(for example on the empty string). -/
def parseIntJs (s : String) : Option Int :=
  let t := s.data.dropWhile (fun c => c.isWhitespace)
  let signed : Bool × List Char :=
    match t with
    | [] => (false, [])
    | c :: rest =>
        if c = '-' then (true, rest)
        else if c = '+' then (false, rest)
        else (false, t)
  let ds := signed.2.takeWhile (fun c => c.isDigit)
  if ds.isEmpty then
    none
  else if signed.1 then
    some (-(digitsVal ds : Int))
  else
    some ((digitsVal ds : Int))

/-- The `onChange` handler of the max-turns field (App.tsx line 183):
`setMaxTurns(Math.max(1, parseInt(e.target.value)))`.  `Math.max` with a
`NaN` argument returns `NaN`, modelled by `Option.map` on `none`. -/
def setMaxTurnsInput (v : String) (s : AppState) : AppState :=
  { s with maxTurns := (parseIntJs v).map (fun n => max 1 n) }

/-- One entry of the rendered move log (App.tsx line 230):
index + 1, a period, the side by index parity, a colon, the formatted move. -/
def renderMoveLogEntry (index : Nat) (move : String) : String :=
  toString (index + 1) ++ ". " ++ (if index % 2 = 0 then "White" else "Black")
    ++ ": " ++ formatMove move

/-- Helper for `renderMoveLog`: the `movesHistory.map((move, index) => ...)`
callback applied from a given starting index. -/
def renderMoveLogFrom : Nat → List String → List String
  | _, [] => []
  | index, move :: rest => renderMoveLogEntry index move :: renderMoveLogFrom (index + 1) rest

/-- The rendered move log (App.tsx lines 219-235): one formatted entry per
recorded move, indexed from 0. -/
def renderMoveLog (movesHistory : List String) : List String :=
  renderMoveLogFrom 0 movesHistory

end AgenticChess

namespace AgenticChess

/-! Helper lemmas shared by the claim theorems. -/

/-- Appending the move at index `k` to the first `k` converted moves gives
the first `k + 1` converted moves. -/
theorem map_take_concat (moves : List String) (k : Nat) (hlt : k < moves.length) :
    (moves.take k).map toAppliedMove ++ [toAppliedMove (moves.getD k "")]
      = (moves.take (k + 1)).map toAppliedMove := by
  rw [List.getD_eq_getElem moves "" hlt]
  have hklen : k < (List.map toAppliedMove moves).length := by simpa using hlt
  calc List.map toAppliedMove (List.take k moves) ++ [toAppliedMove moves[k]]
      = (List.map toAppliedMove moves).take k
          ++ [(List.map toAppliedMove moves)[k]] := by
        simp [List.map_take]
    _ = (List.map toAppliedMove moves).take (k + 1) :=
        List.take_concat_get' (List.map toAppliedMove moves) k hklen
    _ = List.map toAppliedMove (List.take (k + 1) moves) := by
        simp [List.map_take]

/-- Running `playMoves` to completion from cursor `i` appends exactly the
moves with indices `[i, length)` to the engine, in list order, and ends
with the finished flag set, the thinking text cleared and loading ended;
the recorded move list, the started flag and the position-mirror invariant
are preserved.  `n` is a bound on the number of remaining moves, supplied
for the induction. -/
theorem playMoves_props (moves : List String) :
    ∀ n i s, moves.length - i ≤ n →
      (playMoves moves i s).game.applied
          = s.game.applied ++ (moves.drop i).map toAppliedMove
        ∧ (playMoves moves i s).gameFinished = true
        ∧ (playMoves moves i s).thinking = ""
        ∧ (playMoves moves i s).isLoading = false
        ∧ (s.position = s.game.fen →
            (playMoves moves i s).position = (playMoves moves i s).game.fen)
        ∧ (playMoves moves i s).movesHistory = s.movesHistory
        ∧ (playMoves moves i s).gameStarted = s.gameStarted := by
  intro n
  induction n with
  | zero =>
      intro i s h
      have hge : moves.length ≤ i := by omega
      rw [playMoves, if_neg (by omega)]
      have hdrop : moves.drop i = [] := List.drop_eq_nil_of_le hge
      refine ⟨by simp [finishReplay, hdrop], rfl, rfl, rfl, ?_, rfl, rfl⟩
      intro hpos
      simpa [finishReplay, ChessGame.fen] using hpos
  | succ n ih =>
      intro i s h
      by_cases hlt : i < moves.length
      · rw [playMoves, if_pos hlt]
        have h2 : moves.length - (i + 1) ≤ n := by omega
        have hrec := ih (i + 1) (applyMoveAt moves i s) h2
        refine ⟨?_, hrec.2.1, hrec.2.2.1, hrec.2.2.2.1,
          fun _ => hrec.2.2.2.2.1 rfl, hrec.2.2.2.2.2.1, hrec.2.2.2.2.2.2⟩
        rw [hrec.1]
        have hg : (applyMoveAt moves i s).game
            = s.game.move (toAppliedMove (moves.getD i "")) := rfl
        have hdrop : moves.drop i = moves[i] :: moves.drop (i + 1) :=
          List.drop_eq_getElem_cons hlt
        rw [hg, hdrop, ChessGame.move, List.map_cons]
        show (s.game.applied ++ [toAppliedMove (moves.getD i "")])
            ++ (moves.drop (i + 1)).map toAppliedMove
          = s.game.applied
            ++ (toAppliedMove moves[i] :: (moves.drop (i + 1)).map toAppliedMove)
        rw [List.getD_eq_getElem moves "" hlt, List.append_assoc]
        rfl
      · rw [playMoves, if_neg hlt]
        have hdrop : moves.drop i = [] := List.drop_eq_nil_of_le (by omega)
        refine ⟨by simp [finishReplay, hdrop], rfl, rfl, rfl, ?_, rfl, rfl⟩
        intro hpos
        simpa [finishReplay, ChessGame.fen] using hpos

/-- Unfolding one step of the iterated replay sequencer. -/
theorem replayAfter_succ (moves : List String) (k : Nat) (s : AppState) :
    replayAfter moves (k + 1) s = stepReplay moves (replayAfter moves k s) := by
  unfold replayAfter
  exact Function.iterate_succ_apply' (stepReplay moves) k (0, s)

/-- Trace of the replay sequencer: after `k ≤ length` steps from a state
with a reset engine and the finished flag down, the cursor equals `k`,
the engine holds exactly the first `k` moves (so exactly one position
update happened per step, in list order), and the finished flag is still
down. -/
theorem replayAfter_props (moves : List String) (s : AppState)
    (hA : s.game.applied = []) (hF : s.gameFinished = false) :
    ∀ k, k ≤ moves.length →
      (replayAfter moves k s).1 = k
        ∧ (replayAfter moves k s).2.game.applied = (moves.take k).map toAppliedMove
        ∧ (replayAfter moves k s).2.gameFinished = false := by
  intro k
  induction k with
  | zero =>
      intro _
      exact ⟨rfl, by simp [replayAfter, hA], by simp [replayAfter, hF]⟩
  | succ k ih =>
      intro hk
      have hk' : k ≤ moves.length := by omega
      have hlt : k < moves.length := by omega
      obtain ⟨h1, h2, h3⟩ := ih hk'
      rw [replayAfter_succ]
      rw [stepReplay, if_pos (by rw [h1]; exact hlt)]
      refine ⟨by simp [h1], ?_, ?_⟩
      · simp only [h1]
        have hg : (applyMoveAt moves k (replayAfter moves k s).2).game
            = (replayAfter moves k s).2.game.move (toAppliedMove (moves.getD k "")) := rfl
        rw [hg]
        show (replayAfter moves k s).2.game.applied ++ [toAppliedMove (moves.getD k "")]
            = List.map toAppliedMove (List.take (k + 1) moves)
        rw [h2, map_take_concat moves k hlt]
      · simp [applyMoveAt, h3]

end AgenticChess

namespace AgenticChess

/-- C1: for a move list of length N received from the network call, the
replay sequencer performs exactly N position updates, one per move in list
order (after k ≤ N steps the engine holds exactly the first k moves), and
the finished flag — with the thinking text cleared and loading ended — is
set only after the Nth update: it is still down at every k ≤ N and up once
the loop terminates. -/
theorem replay_exactly_N_updates_then_finished (moves : List String) (s : AppState)
    (hA : s.game.applied = []) (hF : s.gameFinished = false) :
    (∀ k, k ≤ moves.length →
        (replayAfter moves k s).1 = k
          ∧ (replayAfter moves k s).2.game.applied = (moves.take k).map toAppliedMove
          ∧ (replayAfter moves k s).2.gameFinished = false)
      ∧ (playMoves moves 0 s).game.applied = moves.map toAppliedMove
      ∧ (playMoves moves 0 s).gameFinished = true
      ∧ (playMoves moves 0 s).thinking = ""
      ∧ (playMoves moves 0 s).isLoading = false := by
  refine ⟨replayAfter_props moves s hA hF, ?_, ?_, ?_, ?_⟩
  all_goals have h := playMoves_props moves moves.length 0 s (by omega)
  · rw [h.1, hA]
    simp
  · exact h.2.1
  · exact h.2.2.1
  · exact h.2.2.2.1

/-- Witness for C1 at the one-element move list and the initial state. -/
theorem replay_exactly_N_updates_then_finished_witness :
    (replayAfter ["e2e4"] 1 initialState).1 = 1
      ∧ (replayAfter ["e2e4"] 1 initialState).2.gameFinished = false
      ∧ (playMoves ["e2e4"] 0 initialState).gameFinished = true
      ∧ (playMoves ["e2e4"] 0 initialState).game.applied
          = [{ fromSq := "e2", toSq := "e4", promotion := "q" }] := by
  have h := replay_exactly_N_updates_then_finished ["e2e4"] initialState rfl rfl
  refine ⟨(h.1 1 (by decide)).1, (h.1 1 (by decide)).2.2, h.2.2.1, ?_⟩
  rw [h.2.1]
  decide

/-- C2: if the network call rejects or throws, afterwards loading is off,
the finished flag is false, the static failure message is the thinking
text, and no replay step ran: the engine and the displayed position are
exactly those of the pre-fetch state (the engine freshly reset, zero
position updates) and the recorded move list is empty. -/
theorem fetch_failure_ends_loading_no_replay (s : AppState) :
    (startGame .failure s).isLoading = false
      ∧ (startGame .failure s).gameFinished = false
      ∧ (startGame .failure s).thinking = "Failed to load moves."
      ∧ (startGame .failure s).game = (preFetch s).game
      ∧ (startGame .failure s).position = (preFetch s).position
      ∧ (startGame .failure s).game.applied = []
      ∧ (startGame .failure s).movesHistory = [] :=
  ⟨rfl, rfl, rfl, rfl, rfl, rfl, rfl⟩

/-- C3: one step of the replay sequencer from a cursor in `[0, length]`
keeps the cursor in `[0, length]`, advances it by exactly one while moves
remain and leaves it fixed at the length (the terminal transition), and
preserves the display invariant: if the displayed position equals the
engine position and the engine holds exactly the moves with indices
`[0, cursor)`, the same holds of the new cursor after the step. -/
theorem replay_cursor_bounds_and_position_invariant (moves : List String)
    (i : Nat) (s : AppState) (hle : i ≤ moves.length) :
    (stepReplay moves (i, s)).1 ≤ moves.length
      ∧ (i < moves.length → (stepReplay moves (i, s)).1 = i + 1)
      ∧ (i = moves.length → (stepReplay moves (i, s)).1 = i)
      ∧ (s.position = s.game.fen → s.game.applied = (moves.take i).map toAppliedMove →
          (stepReplay moves (i, s)).2.position = (stepReplay moves (i, s)).2.game.fen
            ∧ (stepReplay moves (i, s)).2.game.applied
                = (moves.take (stepReplay moves (i, s)).1).map toAppliedMove) := by
  by_cases hlt : i < moves.length
  · rw [stepReplay, if_pos hlt]
    refine ⟨by omega, fun _ => rfl, fun heq => by omega, fun hpos happ => ⟨rfl, ?_⟩⟩
    show (s.game.applied ++ [toAppliedMove (moves.getD i "")])
        = (moves.take (i + 1)).map toAppliedMove
    rw [happ, map_take_concat moves i hlt]
  · rw [stepReplay, if_neg hlt]
    have heq : i = moves.length := by omega
    refine ⟨by omega, fun hc => absurd hc hlt, fun _ => rfl, fun hpos happ => ⟨?_, ?_⟩⟩
    · simpa [finishReplay, ChessGame.fen] using hpos
    · simpa [finishReplay] using happ

/-- Witness for C3 at cursor 0, the one-element move list and the initial
state. -/
theorem replay_cursor_bounds_and_position_invariant_witness :
    (stepReplay ["e2e4"] (0, initialState)).1 = 1
      ∧ (stepReplay ["e2e4"] (0, initialState)).2.position
          = (stepReplay ["e2e4"] (0, initialState)).2.game.fen := by
  have h := replay_cursor_bounds_and_position_invariant ["e2e4"] 0 initialState
    (Nat.zero_le _)
  exact ⟨h.2.1 (by decide), (h.2.2.2 rfl rfl).1⟩

/-- C4: reset from the Finished state restores the engine — and the
displayed position — to the standard starting position, empties the
recorded move list, clears the thinking text, and lowers the finished
flag. -/
theorem reset_from_finished_restores_start (s : AppState)
    (_h : s.gameFinished = true) :
    (resetGame s).game.fen = startFen
      ∧ (resetGame s).position = startFen
      ∧ (resetGame s).game.applied = []
      ∧ (resetGame s).movesHistory = []
      ∧ (resetGame s).thinking = ""
      ∧ (resetGame s).gameFinished = false :=
  ⟨rfl, rfl, rfl, rfl, rfl, rfl⟩

/-- Witness for C4 at a concrete finished state. -/
theorem reset_from_finished_restores_start_witness :
    (resetGame { initialState with gameFinished := true }).position = startFen
      ∧ (resetGame { initialState with gameFinished := true }).gameFinished = false := by
  have h := reset_from_finished_restores_start { initialState with gameFinished := true } rfl
  exact ⟨h.2.1, h.2.2.2.2.2⟩

/-- C5: on an empty move list from the network call the sequencer takes
the terminal transition immediately: finished flag up, loading off,
thinking cleared, zero position updates (the engine still at the starting
position) and an empty recorded move list. -/
theorem empty_move_list_immediately_finished (s : AppState) :
    (startGame (.success []) s).gameFinished = true
      ∧ (startGame (.success []) s).isLoading = false
      ∧ (startGame (.success []) s).thinking = ""
      ∧ (startGame (.success []) s).game.applied = []
      ∧ (startGame (.success []) s).position = startFen
      ∧ (startGame (.success []) s).movesHistory = [] := by
  refine ⟨?_, ?_, ?_, ?_, ?_, ?_⟩
  all_goals
    simp [startGame, postFetchSuccess, preFetch, playMoves, finishReplay,
      ChessGame.reset, ChessGame.fen, startFen]

/-- C6 (code bug): the max-turns handler stores `Math.max(1, parseInt(v))`;
on the empty input string `parseInt` yields `NaN` and `Math.max(1, NaN)`
is `NaN` (modelled as `none`), so the stored count is not clamped to 1,
while every numeric input is clamped to at least 1. -/
theorem maxTurns_nan_on_empty_input :
    (setMaxTurnsInput "" initialState).maxTurns = none
      ∧ (setMaxTurnsInput "0" initialState).maxTurns = some 1
      ∧ (setMaxTurnsInput "-5" initialState).maxTurns = some 1
      ∧ (setMaxTurnsInput "7" initialState).maxTurns = some 7 := by
  decide

/-- C7: the trivia index stays in `[0, length)` across a timer tick, a
tick during the network wait (loading, replay not yet started) advances it
by exactly one modulo the list length, and once replay has started — or
when the match is idle (not loading) — a tick leaves the whole state
unchanged; the index starts in range. -/
theorem trivia_index_bounds_and_stopping (s : AppState)
    (h : s.currentTrivia < chessTrivia.length) :
    (triviaTick s).currentTrivia < chessTrivia.length
      ∧ (s.isLoading = true → s.gameStarted = false →
          (triviaTick s).currentTrivia = (s.currentTrivia + 1) % chessTrivia.length)
      ∧ (s.gameStarted = true → triviaTick s = s)
      ∧ (s.isLoading = false → triviaTick s = s)
      ∧ initialState.currentTrivia < chessTrivia.length := by
  refine ⟨?_, ?_, ?_, ?_, by simp [initialState, chessTrivia]⟩
  · rw [triviaTick]
    split
    · exact Nat.mod_lt _ (by simp [chessTrivia])
    · exact h
  · intro hl hg
    rw [triviaTick, if_pos (by simp [hl, hg])]
  · intro hg
    rw [triviaTick, if_neg (by simp [hg])]
  · intro hl
    rw [triviaTick, if_neg (by simp [hl])]

/-- Witness for C7 at the initial state with loading raised, and at the
idle initial state. -/
theorem trivia_index_bounds_and_stopping_witness :
    (triviaTick { initialState with isLoading := true }).currentTrivia
        < chessTrivia.length
      ∧ triviaTick initialState = initialState := by
  refine ⟨(trivia_index_bounds_and_stopping { initialState with isLoading := true }
    (by simp [initialState, chessTrivia])).1, ?_⟩
  exact (trivia_index_bounds_and_stopping initialState
    (by simp [initialState, chessTrivia])).2.2.2.1 rfl

/-- C8: after a full replay of `["e2e4", "e7e5", "g1f3"]` the displayed
position is exactly those three moves applied in order (and equal to the
engine position), the match is finished, and the rendered move log is
exactly the three entries with ply number, side alternating by index
parity starting with White, and the move code as origin-hyphen-destination. -/
theorem three_move_scenario_position_and_log :
    (startGame (.success ["e2e4", "e7e5", "g1f3"]) initialState).position
        = [ { fromSq := "e2", toSq := "e4", promotion := "q" }
          , { fromSq := "e7", toSq := "e5", promotion := "q" }
          , { fromSq := "g1", toSq := "f3", promotion := "q" } ]
      ∧ (startGame (.success ["e2e4", "e7e5", "g1f3"]) initialState).position
          = (startGame (.success ["e2e4", "e7e5", "g1f3"]) initialState).game.fen
      ∧ (startGame (.success ["e2e4", "e7e5", "g1f3"]) initialState).gameFinished = true
      ∧ renderMoveLog
            (startGame (.success ["e2e4", "e7e5", "g1f3"]) initialState).movesHistory
          = ["1. White: e2-e4", "2. Black: e7-e5", "3. White: g1-f3"] := by
  refine ⟨?_, ?_, ?_, ?_⟩
  all_goals
    simp [startGame, postFetchSuccess, preFetch, playMoves, applyMoveAt,
      finishReplay, toAppliedMove, ChessGame.move, ChessGame.reset, ChessGame.fen,
      initialState, renderMoveLog, renderMoveLogFrom, renderMoveLogEntry, formatMove]
  all_goals decide

/-- C9: every move the replay sequencer applies to the engine during a
started match carries the fixed promotion choice queen, whatever the
received move code, for every received move list. -/
theorem every_applied_move_promotes_to_queen (moves : List String) (s : AppState)
    (m : AppliedMove) (hm : m ∈ (startGame (.success moves) s).game.applied) :
    m.promotion = "q" := by
  have h := playMoves_props moves moves.length 0 (postFetchSuccess moves s) (by omega)
  have hs : (startGame (.success moves) s).game.applied
      = (playMoves moves 0 (postFetchSuccess moves s)).game.applied := rfl
  rw [hs, h.1] at hm
  have hpre : (postFetchSuccess moves s).game.applied = [] := rfl
  rw [hpre, List.nil_append, List.drop_zero] at hm
  obtain ⟨x, _, hx⟩ := List.mem_map.mp hm
  rw [← hx]
  rfl

/-- Witness for C9 at the one-element move list, the initial state and the
converted move. -/
theorem every_applied_move_promotes_to_queen_witness :
    AppliedMove.promotion { fromSq := "e2", toSq := "e4", promotion := "q" } = "q" := by
  refine every_applied_move_promotes_to_queen ["e2e4"] initialState _ ?_
  simp [startGame, postFetchSuccess, preFetch, playMoves, applyMoveAt,
    finishReplay, toAppliedMove, ChessGame.move, ChessGame.reset, initialState]
  decide

/-- C10: the reset action leaves the whole match configuration unchanged:
both provider selections, both API keys and the max-turn count read the
same after the reset as before it. -/
theorem reset_preserves_configuration (s : AppState) :
    (resetGame s).whiteModel = s.whiteModel
      ∧ (resetGame s).blackModel = s.blackModel
      ∧ (resetGame s).whiteKey = s.whiteKey
      ∧ (resetGame s).blackKey = s.blackKey
      ∧ (resetGame s).maxTurns = s.maxTurns :=
  ⟨rfl, rfl, rfl, rfl, rfl⟩

end AgenticChess
